import Mathlib

/-!
Verification of the AES-128 timing side-channel measurement core
(`src/main.c` of the BT-AES-timing-attack repository) against its
natural-language specification.

The repository ships the student ("truncated") version of `main.c`: the
bodies of the tallying block in `generate`, of `calc_means` and of
`correlate` are removed and replaced by TODO markers.  Those parts are
modelled from the specification (each such definition carries a doc
comment starting with "Modelled from the spec:").  Everything else
(the measurement do-while loop, `pearson_correlation_coefficient`,
`cmp_zip`, `calc_encryption_stats`, `brute_force`, `main`) is embedded
from the C source.

Machine integers are modelled as `ℕ`/`ℤ` (all quantities involved are
non-negative and far from overflow), and C `double` values as `ℝ`
(exact real arithmetic; the one place where double-vs-int conversion
matters, the CLI threshold, is modelled as `ℚ` with explicit floor).
-/

set_option maxRecDepth 10000

namespace AESTiming

/-- A byte, as used for key/plaintext/ciphertext entries. -/
abbrev Byte := Fin 256

/-- A 16-byte block (plaintext, ciphertext or AES-128 key). -/
abbrev Block := Fin 16 → Byte

/-- The C `struct tally`: `num` counts measurements, `ticks` accumulates
their durations.  (`ticks` is a C double accumulating integer tick counts;
it is modelled as `ℕ`.) -/
structure tally where
  num : ℕ
  ticks : ℕ
deriving DecidableEq

/-- The mutable measurement state of one key study: the 16×256 tally
table `tly[position][cleartext byte]` together with the global counters
`total_runs` and `total_ticks` of `main.c`. -/
structure RunState where
  tly : Fin 16 → Fin 256 → tally
  total_runs : ℕ
  total_ticks : ℕ

/-- Record one accepted measurement of duration `d` into a single tally cell. -/
def tallyBump (t : tally) (d : ℕ) : tally :=
  ⟨t.num + 1, t.ticks + d⟩

/-- One iteration of the tallying loop: update the cell of position `i`
for cleartext byte `P i`, leaving all other cells unchanged. -/
def tallyUpd (P : Block) (d : ℕ) (t : Fin 16 → Fin 256 → tally) (i : Fin 16) :
    Fin 16 → Fin 256 → tally :=
  fun j b => if j = i ∧ b = P i then tallyBump (t j b) d else t j b

/-- Modelled from the spec: the tallying block removed from `generate`
in `src/main.c` (the "YOUR CODE HERE" section).  Per the spec, once a
measurement of plaintext `P` with duration `d` ticks is accepted, for
every position `i ∈ {0..15}` the cell `Tally(i, P[i])` gets its count
incremented and `d` added to its tick sum; then `d` is added to
`total_ticks` and `total_runs` is incremented. -/
def generate_accept (s : RunState) (P : Block) (d : ℕ) : RunState :=
  { tly := (List.finRange 16).foldl (tallyUpd P d) s.tly
    total_runs := s.total_runs + 1
    total_ticks := s.total_ticks + d }

lemma tallyUpd_foldl_eval (P : Block) (d : ℕ) :
    ∀ (l : List (Fin 16)) (t : Fin 16 → Fin 256 → tally), l.Nodup →
      ∀ j b, (l.foldl (tallyUpd P d) t) j b
        = if j ∈ l ∧ b = P j then tallyBump (t j b) d else t j b := by
  intro l
  induction l with
  | nil =>
    intro t _ j b
    simp
  | cons i rest ih =>
    intro t hnd j b
    have hind : i ∉ rest := (List.nodup_cons.mp hnd).1
    have hrest : rest.Nodup := (List.nodup_cons.mp hnd).2
    rw [List.foldl_cons, ih (tallyUpd P d t i) hrest j b]
    by_cases hjr : j ∈ rest
    · have hji : j ≠ i := fun h => hind (h ▸ hjr)
      have hmem : j ∈ i :: rest := List.mem_cons_of_mem i hjr
      by_cases hb : b = P j
      · have hup : ∀ c, tallyUpd P d t i j c = t j c := by
          intro c
          simp [tallyUpd, hji]
        simp only [hjr, hb, hmem, and_self, if_true, hup]
      · simp [hjr, hb, tallyUpd, hji]
    · by_cases hji : j = i
      · subst hji
        simp only [hjr, false_and, if_false]
        by_cases hb : b = P j
        · simp [tallyUpd, hb, List.mem_cons_self]
        · simp [tallyUpd, hb]
      · have hmem : j ∉ i :: rest := by
          simp [List.mem_cons, hji, hjr]
        simp [hjr, hmem, tallyUpd, hji]

lemma generate_accept_tly (s : RunState) (P : Block) (d : ℕ) (j : Fin 16) (b : Fin 256) :
    (generate_accept s P d).tly j b
      = if b = P j then tallyBump (s.tly j b) d else s.tly j b := by
  have h := tallyUpd_foldl_eval P d (List.finRange 16) s.tly (List.nodup_finRange 16) j b
  simpa [generate_accept, List.mem_finRange] using h

/-- **C1.** Each accepted measurement (plaintext `P`, duration `d`)
updates the tally table at all 16 positions: for every position `i`,
the cell `(i, P i)` has its count incremented by 1 and `d` added to its
tick sum, and afterwards `d` is added to `total_ticks` and `total_runs`
is incremented by 1. -/
theorem generate_updates_all_positions (s : RunState) (P : Block) (d : ℕ) :
    (∀ i : Fin 16,
      ((generate_accept s P d).tly i (P i)).num = (s.tly i (P i)).num + 1 ∧
      ((generate_accept s P d).tly i (P i)).ticks = (s.tly i (P i)).ticks + d) ∧
    (generate_accept s P d).total_ticks = s.total_ticks + d ∧
    (generate_accept s P d).total_runs = s.total_runs + 1 := by
  refine ⟨fun i => ?_, rfl, rfl⟩
  rw [generate_accept_tly s P d i (P i), if_pos rfl]
  exact ⟨rfl, rfl⟩

/-- The zeroed measurement state: `study_key` clears the tally table
(memset to zero) and zeroes `total_runs` and `total_ticks` before the
measurement loop. -/
def zeroState : RunState :=
  { tly := fun _ _ => ⟨0, 0⟩, total_runs := 0, total_ticks := 0 }

/-- The measurement phase of `study_key`: starting from the zeroed
state, record every accepted measurement (plaintext, duration) of the
`generate` loop in order. -/
def study_run (ms : List (Block × ℕ)) : RunState :=
  ms.foldl (fun s m => generate_accept s m.1 m.2) zeroState

lemma generate_accept_row_sums (s : RunState) (P : Block) (d : ℕ) (i : Fin 16) :
    (∑ b : Fin 256, ((generate_accept s P d).tly i b).num)
        = (∑ b : Fin 256, (s.tly i b).num) + 1 ∧
    (∑ b : Fin 256, ((generate_accept s P d).tly i b).ticks)
        = (∑ b : Fin 256, (s.tly i b).ticks) + d := by
  have hn : ∀ b : Fin 256, ((generate_accept s P d).tly i b).num
      = (s.tly i b).num + if b = P i then 1 else 0 := by
    intro b
    rw [generate_accept_tly]
    by_cases hb : b = P i
    · simp [hb, tallyBump]
    · simp [hb]
  have ht : ∀ b : Fin 256, ((generate_accept s P d).tly i b).ticks
      = (s.tly i b).ticks + if b = P i then d else 0 := by
    intro b
    rw [generate_accept_tly]
    by_cases hb : b = P i
    · simp [hb, tallyBump]
    · simp [hb]
  constructor
  · rw [Finset.sum_congr rfl fun b _ => hn b, Finset.sum_add_distrib,
      Finset.sum_ite_eq' Finset.univ (P i) (fun _ => 1)]
    simp
  · rw [Finset.sum_congr rfl fun b _ => ht b, Finset.sum_add_distrib,
      Finset.sum_ite_eq' Finset.univ (P i) (fun _ => d)]
    simp

lemma study_foldl_invariant :
    ∀ (ms : List (Block × ℕ)) (s : RunState),
      (∀ i : Fin 16, (∑ b : Fin 256, (s.tly i b).num) = s.total_runs ∧
        (∑ b : Fin 256, (s.tly i b).ticks) = s.total_ticks) →
      ∀ i : Fin 16,
        (∑ b : Fin 256, ((ms.foldl (fun s m => generate_accept s m.1 m.2) s).tly i b).num)
          = (ms.foldl (fun s m => generate_accept s m.1 m.2) s).total_runs ∧
        (∑ b : Fin 256, ((ms.foldl (fun s m => generate_accept s m.1 m.2) s).tly i b).ticks)
          = (ms.foldl (fun s m => generate_accept s m.1 m.2) s).total_ticks := by
  intro ms
  induction ms with
  | nil => intro s hs i; exact hs i
  | cons m rest ih =>
    intro s hs i
    rw [List.foldl_cons]
    refine ih (generate_accept s m.1 m.2) (fun j => ?_) i
    have hrow := generate_accept_row_sums s m.1 m.2 j
    refine ⟨?_, ?_⟩
    · rw [hrow.1, (hs j).1]; rfl
    · rw [hrow.2, (hs j).2]; rfl

/-- **C8.** After any run of the measurement loop within a key study
(which starts from the zeroed tally table and counters), for every
position `i` the row sums of the tally table match the global counters:
the counts sum to `total_runs` and the tick sums to `total_ticks`. -/
theorem study_run_tally_conservation (ms : List (Block × ℕ)) (i : Fin 16) :
    (∑ b : Fin 256, ((study_run ms).tly i b).num) = (study_run ms).total_runs ∧
    (∑ b : Fin 256, ((study_run ms).tly i b).ticks) = (study_run ms).total_ticks := by
  refine study_foldl_invariant ms zeroState (fun j => ?_) i
  simp [zeroState]

/-- Modelled from the spec: the body of `calc_means` removed from
`src/main.c` (the "YOUR CODE HERE" section).  With grand mean
G = total_ticks / total_runs, every cell with a positive count is the
raw mean ticks_sum / count divided by G; an empty cell is given the
neutral normalized value 1. -/
noncomputable def calc_means (s : RunState) : Fin 16 → Fin 256 → ℝ :=
  fun i b =>
    if (s.tly i b).num = 0 then 1
    else (((s.tly i b).ticks : ℝ) / ((s.tly i b).num : ℝ))
      / ((s.total_ticks : ℝ) / (s.total_runs : ℝ))

/-- **C2.** For every tally state with `total_runs > 0`, the mean matrix
has, at every `(i, b)`: the value `(ticks_sum / count) / G` with
G = total_ticks / total_runs when the count is positive, and the value 1
when the count is zero. -/
theorem calc_means_spec (s : RunState) (h : 0 < s.total_runs)
    (i : Fin 16) (b : Fin 256) :
    (0 < (s.tly i b).num →
      calc_means s i b = (((s.tly i b).ticks : ℝ) / ((s.tly i b).num : ℝ))
        / ((s.total_ticks : ℝ) / (s.total_runs : ℝ))) ∧
    ((s.tly i b).num = 0 → calc_means s i b = 1) := by
  constructor
  · intro h0
    rw [calc_means, if_neg (Nat.pos_iff_ne_zero.mp h0)]
  · intro h0
    rw [calc_means, if_pos h0]

/-- A concrete one-measurement tally state used to instantiate theorems. -/
def sampleState : RunState :=
  { tly := fun _ _ => ⟨1, 2⟩, total_runs := 1, total_ticks := 2 }

theorem calc_means_spec_witness :
    0 < sampleState.total_runs ∧
    ((0 < (sampleState.tly 0 0).num →
      calc_means sampleState 0 0
        = (((sampleState.tly 0 0).ticks : ℝ) / ((sampleState.tly 0 0).num : ℝ))
          / ((sampleState.total_ticks : ℝ) / (sampleState.total_runs : ℝ))) ∧
    ((sampleState.tly 0 0).num = 0 → calc_means sampleState 0 0 = 1)) :=
  ⟨by decide, calc_means_spec sampleState (by decide) 0 0⟩

/-- Bytewise XOR on byte values, the first-round T-box index map
(cleartext byte XOR key byte). -/
def bxor (a b : Byte) : Byte :=
  ⟨a.val ^^^ b.val, by
    have h : a.val ^^^ b.val < 2 ^ 8 :=
      Nat.xor_lt_two_pow (by simpa using a.isLt) (by simpa using b.isLt)
    simpa using h⟩

/-- The Pearson correlation of two length-256 datasets, transcribed from
`pearson_correlation_coefficient` in `src/main.c`: averages over the 256
entries, variance and covariance estimates with denominator 255 = N − 1,
and the quotient cov / sqrt(var_x · var_y). -/
noncomputable def pearson_correlation_coefficient (data1 data2 : Fin 256 → ℝ) : ℝ :=
  (((∑ i, data1 i * data2 i)
      - 256 * ((∑ i, data1 i) / 256) * ((∑ i, data2 i) / 256)) / 255)
    / Real.sqrt
      ((((∑ i, data1 i * data1 i)
          - 256 * ((∑ i, data1 i) / 256) * ((∑ i, data1 i) / 256)) / 255)
        * (((∑ i, data2 i * data2 i)
          - 256 * ((∑ i, data2 i) / 256) * ((∑ i, data2 i) / 256)) / 255))

/-- Modelled from the spec: the body of `correlate` removed from
`src/main.c` (the "YOUR CODE HERE" section).  `means1` belongs to the
measurement under the known test key `key` and `means2` to the unknown
target key; the entry at position `i` and candidate byte `k1` is the
Pearson coefficient of the two mean vectors re-indexed by the shared
first-round T-box input `s`. -/
noncomputable def correlate (means1 means2 : Fin 16 → Fin 256 → ℝ)
    (key : Block) : Fin 16 → Fin 256 → ℝ :=
  fun i k1 => pearson_correlation_coefficient
    (fun s => means2 i (bxor s k1))
    (fun s => means1 i (bxor s (key i)))

/-- **C3.** For mean matrices of the target and of a test key with key
bytes `k2`, every position `i` and candidate byte `k1`, the correlation
entry is the Pearson coefficient of the vectors X and Y with
X s = M_target i (s XOR k1) and Y s = M_test i (s XOR k2 i). -/
theorem correlate_entry_eq_pearson_realigned
    (Mtest Mtarget : Fin 16 → Fin 256 → ℝ) (k2 : Block)
    (i : Fin 16) (k1 : Fin 256) :
    correlate Mtest Mtarget k2 i k1
      = pearson_correlation_coefficient
          (fun s => Mtarget i (bxor s k1))
          (fun s => Mtest i (bxor s (k2 i))) := rfl

/-- The dataset 0, 1, 2, …, 255. -/
noncomputable def identVec : Fin 256 → ℝ := fun i => ((i : ℕ) : ℝ)

/-- The reverse of `identVec`: 255, 254, …, 0. -/
noncomputable def reverseVec : Fin 256 → ℝ := fun i => 255 - ((i : ℕ) : ℝ)

lemma sum_range_id_256 : (∑ i in Finset.range 256, i) = 32640 := by decide

lemma sum_range_sq_256 : (∑ i in Finset.range 256, i * i) = 5559680 := by decide

lemma sum_fin_cast : (∑ i : Fin 256, ((i : ℕ) : ℝ)) = 32640 := by
  rw [Fin.sum_univ_eq_sum_range (fun n => (n : ℝ)) 256, ← Nat.cast_sum,
    sum_range_id_256]
  norm_num

lemma sum_fin_cast_sq : (∑ i : Fin 256, ((i : ℕ) : ℝ) * ((i : ℕ) : ℝ)) = 5559680 := by
  rw [Fin.sum_univ_eq_sum_range (fun n => (n : ℝ) * (n : ℝ)) 256]
  have h : (∑ i in Finset.range 256, (i : ℝ) * (i : ℝ))
      = ((∑ i in Finset.range 256, i * i : ℕ) : ℝ) := by
    push_cast
    rfl
  rw [h, sum_range_sq_256]
  norm_num

lemma sum_identVec : (∑ i : Fin 256, identVec i) = 32640 := by
  simp only [identVec]
  exact sum_fin_cast

lemma sum_identVec_sq : (∑ i : Fin 256, identVec i * identVec i) = 5559680 := by
  simp only [identVec]
  exact sum_fin_cast_sq

lemma sum_reverseVec : (∑ i : Fin 256, reverseVec i) = 32640 := by
  simp only [reverseVec]
  rw [Finset.sum_sub_distrib, sum_fin_cast, Finset.sum_const, Finset.card_univ]
  simp only [Fintype.card_fin, nsmul_eq_mul]
  norm_num

lemma sum_reverseVec_sq : (∑ i : Fin 256, reverseVec i * reverseVec i) = 5559680 := by
  simp only [reverseVec]
  have expand : ∀ i : Fin 256,
      ((255 : ℝ) - ((i : ℕ) : ℝ)) * (255 - ((i : ℕ) : ℝ))
        = 65025 - 510 * ((i : ℕ) : ℝ) + ((i : ℕ) : ℝ) * ((i : ℕ) : ℝ) := by
    intro i
    ring
  rw [Finset.sum_congr rfl fun i _ => expand i, Finset.sum_add_distrib,
    Finset.sum_sub_distrib, ← Finset.mul_sum, sum_fin_cast, sum_fin_cast_sq,
    Finset.sum_const, Finset.card_univ]
  simp only [Fintype.card_fin, nsmul_eq_mul]
  norm_num

lemma sum_ident_reverse : (∑ i : Fin 256, identVec i * reverseVec i) = 2763520 := by
  simp only [identVec, reverseVec]
  have expand : ∀ i : Fin 256,
      ((i : ℕ) : ℝ) * (255 - ((i : ℕ) : ℝ))
        = 255 * ((i : ℕ) : ℝ) - ((i : ℕ) : ℝ) * ((i : ℕ) : ℝ) := by
    intro i
    ring
  rw [Finset.sum_congr rfl fun i _ => expand i, Finset.sum_sub_distrib,
    ← Finset.mul_sum, sum_fin_cast, sum_fin_cast_sq]
  norm_num

/-- **C6.** `pearson_correlation_coefficient` (textbook formula with
denominator N − 1 = 255 over its two length-256 inputs, as transcribed
from the source) yields 1 on X = Y = [0, 1, …, 255] and −1 when Y is
the reverse of that X. -/
theorem pearson_spot_check :
    pearson_correlation_coefficient identVec identVec = 1 ∧
    pearson_correlation_coefficient identVec reverseVec = -1 := by
  have hvar : ((5559680 : ℝ) - 256 * ((32640 : ℝ) / 256) * ((32640 : ℝ) / 256)) / 255
      = 1398080 / 255 := by norm_num
  have hsqrt : Real.sqrt ((1398080 / 255 : ℝ) * (1398080 / 255)) = 1398080 / 255 :=
    Real.sqrt_mul_self (by norm_num)
  constructor
  · simp only [pearson_correlation_coefficient]
    rw [sum_identVec, sum_identVec_sq, hvar, hsqrt]
    norm_num
  · simp only [pearson_correlation_coefficient]
    rw [sum_identVec, sum_identVec_sq, sum_reverseVec, sum_reverseVec_sq,
      sum_ident_reverse]
    have hcov : ((2763520 : ℝ) - 256 * ((32640 : ℝ) / 256) * ((32640 : ℝ) / 256)) / 255
        = -(1398080 / 255) := by norm_num
    rw [hvar, hcov, hsqrt]
    norm_num

/-- The acceptance loop inside `generate` in `src/main.c`
(do-while: measure, repeat while the tick count exceeds the cutoff
threshold), given fuel: starting at measurement index `i`, return the
first tick count not exceeding the threshold `T`, or `none` when the
fuel runs out first.  `tick n` is the duration the cycle timer reports
for the n-th encryption attempt. -/
def measure_loop (tick : ℕ → ℕ) (T : ℕ) : ℕ → ℕ → Option ℕ
  | _, 0 => none
  | i, fuel + 1 =>
    if tick i ≤ T then some (tick i) else measure_loop tick T (i + 1) fuel

lemma measure_loop_isSome_of_le :
    ∀ (tick : ℕ → ℕ) (T fuel i : ℕ), (∃ n, i ≤ n ∧ n < i + fuel ∧ tick n ≤ T) →
      (measure_loop tick T i fuel).isSome := by
  intro tick T fuel
  induction fuel with
  | zero =>
    intro i h
    obtain ⟨n, h1, h2, _⟩ := h
    omega
  | succ fuel ih =>
    intro i h
    by_cases hi : tick i ≤ T
    · simp [measure_loop, hi]
    · obtain ⟨n, h1, h2, h3⟩ := h
      have hni : n ≠ i := fun he => hi (he ▸ h3)
      rw [measure_loop, if_neg hi]
      exact ih (i + 1) ⟨n, by omega, by omega, h3⟩

lemma measure_loop_le_of_isSome :
    ∀ (tick : ℕ → ℕ) (T fuel i : ℕ), (measure_loop tick T i fuel).isSome →
      ∃ n, tick n ≤ T := by
  intro tick T fuel
  induction fuel with
  | zero =>
    intro i h
    simp [measure_loop] at h
  | succ fuel ih =>
    intro i h
    by_cases hi : tick i ≤ T
    · exact ⟨i, hi⟩
    · rw [measure_loop, if_neg hi] at h
      exact ih (i + 1) h

/-- **C9.** With the outlier filter enabled, a single measurement step
terminates (for some amount of fuel the acceptance loop yields a
measurement) if and only if some encryption attempt takes at most the
cutoff threshold `T` ticks; when every attempt exceeds `T` no amount of
fuel suffices, i.e. the loop runs forever. -/
theorem measure_loop_terminates_iff (tick : ℕ → ℕ) (T : ℕ) :
    (∃ fuel, (measure_loop tick T 0 fuel).isSome) ↔ (∃ n, tick n ≤ T) := by
  constructor
  · rintro ⟨fuel, h⟩
    exact measure_loop_le_of_isSome tick T fuel 0 h
  · rintro ⟨n, hn⟩
    exact ⟨n + 1, measure_loop_isSome_of_le tick T (n + 1) 0 ⟨n, by omega, by omega, hn⟩⟩

/-- The position reordering step of `brute_force` in `src/main.c`: the
identity order 0..15 is sorted with the comparator `cmp_zip` keyed by
the pool lengths.  `cmp_zip` puts `p1` before `p2` exactly when
`val[p2] ≤ val[p1]` (it returns a positive value only when
`val[p2] > val[p1]`), i.e. it sorts by descending value; the C code
calls qsort_r, modelled here as a stable sort consistent with that
comparator. -/
def bfOrder (lens : Fin 16 → ℕ) : List (Fin 16) :=
  (List.finRange 16).insertionSort (fun a b => lens b ≤ lens a)

/-- Pool lengths giving position 0 the unique smallest pool. -/
def exLens : Fin 16 → ℕ := fun i => if i = 0 then 1 else 2

/-- **C5, counterexample.**  With pool sizes 1 at position 0 and 2
elsewhere, the position order used by `brute_force` is not sorted by
ascending pool size, and its first entry is position 1, not the
position with the smallest pool. -/
theorem bfOrder_not_ascending :
    ¬ ((bfOrder exLens).Pairwise fun a b => exLens a ≤ exLens b) ∧
    (bfOrder exLens).headI ≠ 0 := by
  constructor
  · decide
  · decide

lemma pair_sublist_of_pairwise_lt :
    ∀ (l : List (Fin 16)), l.Pairwise (· < ·) →
      ∀ a b : Fin 16, a < b → a ∈ l → b ∈ l → List.Sublist [a, b] l := by
  intro l
  induction l with
  | nil =>
    intro _ a b _ ha _
    simp at ha
  | cons x xs ih =>
    intro hp a b hab ha hb
    rcases List.mem_cons.mp ha with rfl | ha'
    · have hb' : b ∈ xs := by
        rcases List.mem_cons.mp hb with rfl | h
        · exact absurd hab (lt_irrefl b)
        · exact h
      exact List.Sublist.cons₂ a (List.singleton_sublist.mpr hb')
    · have hbx : b ∈ xs := by
        rcases List.mem_cons.mp hb with rfl | h
        · have hxa := (List.pairwise_cons.mp hp).1 a ha'
          exact absurd (lt_trans hab hxa) (lt_irrefl a)
        · exact h
      exact List.Sublist.cons x (ih (List.pairwise_cons.mp hp).2 a b hab ha' hbx)

lemma pair_sublist_finRange {a b : Fin 16} (hab : a < b) :
    List.Sublist [a, b] (List.finRange 16) :=
  pair_sublist_of_pairwise_lt (List.finRange 16) (List.pairwise_lt_finRange 16)
    a b hab (List.mem_finRange a) (List.mem_finRange b)

/-- **C5, amended.**  The position order used for counter carries in
`brute_force` is sorted by descending pool size: pool sizes never
increase along the order, so the position with the smallest pool sits
at the end (the outermost, least frequently incremented counter), not
at the front; positions with equal pool sizes keep their original
relative order (the model sorts stably with the source comparator),
and the order is a permutation of the 16 positions. -/
theorem bfOrder_descending_stable (lens : Fin 16 → ℕ) :
    (bfOrder lens).Pairwise (fun a b => lens b ≤ lens a) ∧
    (∀ a b : Fin 16, a < b → lens a = lens b →
      List.Sublist [a, b] (bfOrder lens)) ∧
    (bfOrder lens).Perm (List.finRange 16) := by
  refine ⟨?_, ?_, List.perm_insertionSort _ _⟩
  · letI : IsTotal (Fin 16) (fun a b => lens b ≤ lens a) :=
      ⟨fun a b => Nat.le_total (lens b) (lens a)⟩
    letI : IsTrans (Fin 16) (fun a b => lens b ≤ lens a) :=
      ⟨fun a b c hab hbc => le_trans hbc hab⟩
    exact List.sorted_insertionSort _ _
  · intro a b hab hl
    exact List.pair_sublist_insertionSort (le_of_eq hl.symm)
      (pair_sublist_finRange hab)

theorem bfOrder_descending_stable_witness :
    (bfOrder exLens).Pairwise (fun a b => exLens b ≤ exLens a) ∧
    ((1 : Fin 16) < 2 ∧ exLens 1 = exLens 2 ∧
      List.Sublist [(1 : Fin 16), 2] (bfOrder exLens)) ∧
    (bfOrder exLens).Perm (List.finRange 16) :=
  ⟨(bfOrder_descending_stable exLens).1,
    ⟨by decide, by decide,
      (bfOrder_descending_stable exLens).2.1 1 2 (by decide) (by decide)⟩,
    (bfOrder_descending_stable exLens).2.2⟩

/-- The odometer enumeration of the counter vectors visited by the
while loop of `brute_force`: the digit order is given by `order` (its
head is the counter incremented most frequently), digit `d` ranges over
0 to `lens d - 1`, every position outside `order` stays 0, and the
enumeration starts from the all-zeros vector. -/
def bfCombos (lens : Fin 16 → ℕ) : List (Fin 16) → List (Fin 16 → ℕ)
  | [] => [fun _ => 0]
  | d :: rest => (bfCombos lens rest).flatMap
      (fun a => (List.range (lens d)).map fun v => Function.update a d v)

lemma bfCombos_length (lens : Fin 16 → ℕ) :
    ∀ order : List (Fin 16),
      (bfCombos lens order).length = (order.map lens).prod := by
  intro order
  induction order with
  | nil => simp [bfCombos]
  | cons d rest ih =>
    rw [bfCombos, List.length_flatMap]
    have h : (List.length ∘ fun a : Fin 16 → ℕ =>
          (List.range (lens d)).map fun v => Function.update a d v)
        = fun _ : Fin 16 → ℕ => lens d := by
      funext a
      simp
    rw [h, List.map_const', List.sum_replicate, smul_eq_mul, ih, List.map_cons,
      List.prod_cons, mul_comm]

lemma bfCombos_mem (lens : Fin 16 → ℕ) :
    ∀ (order : List (Fin 16)), order.Nodup → ∀ idx : Fin 16 → ℕ,
      (idx ∈ bfCombos lens order ↔
        (∀ d ∈ order, idx d < lens d) ∧ ∀ d, d ∉ order → idx d = 0) := by
  intro order
  induction order with
  | nil =>
    intro _ idx
    simp only [bfCombos, List.mem_singleton, List.not_mem_nil, false_implies,
      implies_true, true_and, List.not_mem_nil, not_false_iff]
    constructor
    · rintro rfl
      exact fun d _ => rfl
    · intro hz
      funext d
      exact hz d (by simp)
  | cons d rest ih =>
    intro hnd idx
    have hdr : d ∉ rest := (List.nodup_cons.mp hnd).1
    have hrest : rest.Nodup := (List.nodup_cons.mp hnd).2
    rw [bfCombos, List.mem_flatMap]
    constructor
    · rintro ⟨a, ha, hm⟩
      rw [List.mem_map] at hm
      obtain ⟨v, hv, rfl⟩ := hm
      rw [List.mem_range] at hv
      have hb := (ih hrest a).mp ha
      constructor
      · intro e he
        rcases List.mem_cons.mp he with rfl | he'
        · rw [Function.update_same]
          exact hv
        · have hne : e ≠ d := fun h => hdr (h ▸ he')
          rw [Function.update_noteq hne]
          exact hb.1 e he'
      · intro e he
        have hne : e ≠ d := fun h => he (h ▸ List.mem_cons_self d rest)
        have hner : e ∉ rest := fun h => he (List.mem_cons_of_mem d h)
        rw [Function.update_noteq hne]
        exact hb.2 e hner
    · rintro ⟨hb, hz⟩
      refine ⟨Function.update idx d 0, ?_, ?_⟩
      · rw [ih hrest]
        constructor
        · intro e he
          have hne : e ≠ d := fun h => hdr (h ▸ he)
          rw [Function.update_noteq hne]
          exact hb e (List.mem_cons_of_mem d he)
        · intro e he
          by_cases hed : e = d
          · subst hed
            rw [Function.update_same]
          · rw [Function.update_noteq hed]
            exact hz e (by simp [List.mem_cons, hed, he])
      · rw [List.mem_map]
        refine ⟨idx d, List.mem_range.mpr (hb d (List.mem_cons_self d rest)), ?_⟩
        funext e
        by_cases hed : e = d
        · subst hed
          rw [Function.update_same]
        · rw [Function.update_noteq hed, Function.update_noteq hed]

/-- One brute-force trial, `brute_force_attempt` in `src/main.c`:
encrypt the probe block under the candidate key (abstracted as
`enc key`, the ciphertext of the all-zeros block under `key`) and
return 0 when the result matches the reference ciphertext byte for
byte, 1 otherwise. -/
def brute_force_attempt (enc : Block → Block) (key target_enctext : Block) : ℕ :=
  if enc key = target_enctext then 0 else 1

/-- `brute_force` from `src/main.c` after the pool file has been read
into `pools`: compute the reference ciphertext of the all-zeros probe
under the target key, sort the position order by pool length with
`cmp_zip`, then drive the counter odometer, returning 0 at the first
candidate key whose probe ciphertext matches the reference and 1 once
the iteration space is exhausted. -/
def brute_force (enc : Block → Block) (target_key : Block)
    (pools : Fin 16 → List Byte) : ℕ :=
  if ((bfCombos (fun i => (pools i).length)
        (bfOrder fun i => (pools i).length)).find? fun idx =>
      brute_force_attempt enc (fun i => (pools i).getD (idx i) 0)
        (enc target_key) == 0).isSome
  then 0 else 1

lemma getD_indexOf (l : List Byte) (a : Byte) (h : a ∈ l) :
    l.getD (l.indexOf a) 0 = a := by
  have hlt := List.indexOf_lt_length.mpr h
  rw [List.getD_eq_getElem l 0 hlt]
  exact List.getElem_indexOf hlt

lemma bfOrder_nodup (lens : Fin 16 → ℕ) : (bfOrder lens).Nodup :=
  (List.perm_insertionSort _ _).nodup_iff.mpr (List.nodup_finRange 16)

lemma mem_bfOrder (lens : Fin 16 → ℕ) (d : Fin 16) : d ∈ bfOrder lens :=
  (List.perm_insertionSort _ _).mem_iff.mpr (List.mem_finRange d)

lemma brute_force_eq_zero (enc : Block → Block) (target : Block)
    (pools : Fin 16 → List Byte)
    (henc : ∀ k : Block, enc k = enc target ↔ k = target)
    (hmem : ∀ i, target i ∈ pools i) :
    brute_force enc target pools = 0 := by
  have hidx : (fun i => (pools i).indexOf (target i))
      ∈ bfCombos (fun i => (pools i).length)
        (bfOrder fun i => (pools i).length) := by
    rw [bfCombos_mem _ _ (bfOrder_nodup _)]
    constructor
    · intro e _
      exact List.indexOf_lt_length.mpr (hmem e)
    · intro e he
      exact absurd (mem_bfOrder _ e) he
  have hkey : (fun i => (pools i).getD ((pools i).indexOf (target i)) 0) = target := by
    funext i
    exact getD_indexOf _ _ (hmem i)
  have hsome : ((bfCombos (fun i => (pools i).length)
        (bfOrder fun i => (pools i).length)).find? fun idx =>
      brute_force_attempt enc (fun i => (pools i).getD (idx i) 0)
        (enc target) == 0).isSome := by
    rw [List.find?_isSome]
    refine ⟨_, hidx, ?_⟩
    simp only [brute_force_attempt, hkey]
    simp
  rw [brute_force, if_pos hsome]

lemma brute_force_eq_one (enc : Block → Block) (target : Block)
    (pools : Fin 16 → List Byte)
    (henc : ∀ k : Block, enc k = enc target ↔ k = target)
    (i₀ : Fin 16) (hmiss : target i₀ ∉ pools i₀) :
    brute_force enc target pools = 1 := by
  have hnone : ¬ ((bfCombos (fun i => (pools i).length)
        (bfOrder fun i => (pools i).length)).find? fun idx =>
      brute_force_attempt enc (fun i => (pools i).getD (idx i) 0)
        (enc target) == 0).isSome := by
    rw [List.find?_isSome]
    rintro ⟨idx, hidx, hp⟩
    have hchar := (bfCombos_mem _ _ (bfOrder_nodup _) idx).mp hidx
    have hlt : idx i₀ < (pools i₀).length := hchar.1 i₀ (mem_bfOrder _ i₀)
    have hmem : (pools i₀).getD (idx i₀) 0 ∈ pools i₀ := by
      rw [List.getD_eq_getElem _ 0 hlt]
      exact List.getElem_mem hlt
    have hne : (fun i => (pools i).getD (idx i) 0) ≠ target := by
      intro he
      have hcf := congrFun he i₀
      exact hmiss (hcf ▸ hmem)
    by_cases hek : enc (fun i => (pools i).getD (idx i) 0) = enc target
    · exact hne ((henc _).mp hek)
    · simp only [brute_force_attempt] at hp
      rw [if_neg hek] at hp
      simp at hp
  rw [brute_force, if_neg hnone]

/-- **C4.** With an oracle on which only the target key reproduces the
reference ciphertext of the probe block: if every pool contains the
corresponding target key byte, `brute_force` reports success (0); if
some pool misses its target key byte, `brute_force` exhausts the whole
iteration space — whose size is the product of the pool lengths — and
reports failure (1). -/
theorem brute_force_complete (enc : Block → Block) (target : Block)
    (pools : Fin 16 → List Byte)
    (henc : ∀ k : Block, enc k = enc target ↔ k = target) :
    ((∀ i, target i ∈ pools i) → brute_force enc target pools = 0) ∧
    ((∃ i, target i ∉ pools i) →
      brute_force enc target pools = 1 ∧
      (bfCombos (fun i => (pools i).length)
          (bfOrder fun i => (pools i).length)).length
        = ∏ i : Fin 16, (pools i).length) := by
  constructor
  · intro hmem
    exact brute_force_eq_zero enc target pools henc hmem
  · rintro ⟨i₀, hmiss⟩
    refine ⟨brute_force_eq_one enc target pools henc i₀ hmiss, ?_⟩
    rw [bfCombos_length, Fin.prod_univ_def]
    exact List.Perm.prod_eq ((List.perm_insertionSort _ _).map _)

/-- Singleton pools, each holding just the zero byte. -/
def onePools : Fin 16 → List Byte := fun _ => [0]

/-- The all-zeros key. -/
def zeroKey : Block := fun _ => 0

theorem brute_force_complete_witness :
    (∀ k : Block, id k = id zeroKey ↔ k = zeroKey) ∧
    (∀ i, zeroKey i ∈ onePools i) ∧
    brute_force id zeroKey onePools = 0 :=
  ⟨fun _ => Iff.rfl, by decide,
    (brute_force_complete id zeroKey onePools fun _ => Iff.rfl).1 (by decide)⟩

/-- 2^DEFAULT_RUNS encryptions are performed per key (`src/main.c`). -/
def DEFAULT_RUNS : ℕ := 22

/-- Multiplier of the measured tick average used as the cutoff. -/
def THRESH_MULT : ℕ := 5

/-- `calc_encryption_stats` from `src/main.c`, reduced to the cutoff
value it stores in the int `tally_threshold`: when the CLI argument
`d_arg` (a double, modelled as `ℚ`) is positive, calibration is skipped
and the double is truncated into the int; otherwise `runs` measurements
are taken with the outlier filter disabled (`tick n` giving the
duration of the n-th), and the threshold is the integer mean of the
tick total times `THRESH_MULT`. -/
def calc_encryption_stats (d_arg : ℚ) (tick : ℕ → ℕ) (runs : ℕ) : ℤ :=
  if 0 < d_arg then ⌊d_arg⌋
  else ((∑ i in Finset.range runs, tick i) / runs * THRESH_MULT : ℕ)

lemma calc_stats_pos (d_arg : ℚ) (tick : ℕ → ℕ) (runs : ℕ) (h : 0 < d_arg) :
    calc_encryption_stats d_arg tick runs = ⌊d_arg⌋ := by
  rw [calc_encryption_stats, if_pos h]

lemma calc_stats_nonpos (d_arg : ℚ) (tick : ℕ → ℕ) (runs : ℕ) (h : ¬ 0 < d_arg) :
    calc_encryption_stats d_arg tick runs
      = ((∑ i in Finset.range runs, tick i) / runs * THRESH_MULT : ℕ) := by
  rw [calc_encryption_stats, if_neg h]

/-- A measurement stream whose every encryption takes 0 ticks. -/
def zeroTick : ℕ → ℕ := fun _ => 0

/-- A measurement stream whose every encryption takes 1 tick. -/
def oneTick : ℕ → ℕ := fun _ => 1

/-- **C7, counterexample.**  Supplying the threshold 3.5 = 7/2 on the
CLI skips calibration, but the stored cutoff is the truncated integer
3, not the supplied value. -/
theorem threshold_not_supplied_value :
    ((calc_encryption_stats (7 / 2) zeroTick (2 ^ DEFAULT_RUNS) : ℤ) : ℚ)
      ≠ 7 / 2 := by
  have h := calc_stats_pos (7 / 2) zeroTick (2 ^ DEFAULT_RUNS) (by norm_num)
  rw [h]
  norm_num

/-- **C7, amended.**  If the CLI threshold argument is absent or not
positive, the calibrator sets the cutoff to
(total_ticks / total_runs) × THRESH_MULT (integer arithmetic, with
THRESH_MULT = 5) after 2^22 measurements taken with the outlier filter
disabled; if the CLI supplies a positive value, calibration is skipped
and the cutoff is that value truncated to an integer. -/
theorem calc_encryption_stats_threshold (d_arg : ℚ) (tick : ℕ → ℕ) :
    (0 < d_arg →
      calc_encryption_stats d_arg tick (2 ^ DEFAULT_RUNS) = ⌊d_arg⌋) ∧
    (¬ 0 < d_arg →
      calc_encryption_stats d_arg tick (2 ^ DEFAULT_RUNS)
        = ((∑ i in Finset.range (2 ^ DEFAULT_RUNS), tick i) / 2 ^ DEFAULT_RUNS
            * THRESH_MULT : ℕ)) :=
  ⟨fun h => calc_stats_pos d_arg tick (2 ^ DEFAULT_RUNS) h,
    fun h => calc_stats_nonpos d_arg tick (2 ^ DEFAULT_RUNS) h⟩

theorem calc_encryption_stats_threshold_witness :
    ((0 : ℚ) < 7 / 2 ∧
      calc_encryption_stats (7 / 2) oneTick (2 ^ DEFAULT_RUNS)
        = ⌊(7 / 2 : ℚ)⌋) ∧
    (¬ (0 : ℚ) < 0 ∧
      calc_encryption_stats 0 oneTick (2 ^ DEFAULT_RUNS)
        = ((∑ i in Finset.range (2 ^ DEFAULT_RUNS), oneTick i)
            / 2 ^ DEFAULT_RUNS * THRESH_MULT : ℕ)) :=
  ⟨⟨by norm_num,
      (calc_encryption_stats_threshold (7 / 2) oneTick).1 (by norm_num)⟩,
    ⟨by norm_num,
      (calc_encryption_stats_threshold 0 oneTick).2 (by norm_num)⟩⟩

/-- The exit behaviour of `main` in `src/main.c`, abstracted over the
outcome of reading the 16-byte target-key file (`none` = unreadable;
`main` then prints a diagnostic and returns 1) and over the brute-force
pool file (`none` = absent, in which case `brute_force` returns -1 and
`main` falls through to correlation gathering, which completes normally
with exit code 0).  The Bool records whether correlation gathering was
performed. -/
def main_run (keyRead : Option Block) (bfData : Option (Fin 16 → List Byte))
    (enc : Block → Block) : ℕ × Bool :=
  match keyRead with
  | none => (1, false)
  | some target =>
    match bfData with
    | none => (0, true)
    | some pools => (brute_force enc target pools, false)

/-- **C10.** The process exits 0 on normal completion of correlation
gathering and on successful brute-force, exits 1 when the target-key
file cannot be read and on brute-force exhaustion, and when no pool
file exists it does not brute-force but proceeds with correlation
gathering. -/
theorem main_exit_codes (enc : Block → Block) (target : Block)
    (pools : Fin 16 → List Byte) (bfData : Option (Fin 16 → List Byte))
    (henc : ∀ k : Block, enc k = enc target ↔ k = target) :
    main_run none bfData enc = (1, false) ∧
    main_run (some target) none enc = (0, true) ∧
    ((∀ i, target i ∈ pools i) →
      main_run (some target) (some pools) enc = (0, false)) ∧
    ((∃ i, target i ∉ pools i) →
      main_run (some target) (some pools) enc = (1, false)) := by
  refine ⟨rfl, rfl, ?_, ?_⟩
  · intro hmem
    simp only [main_run]
    rw [brute_force_eq_zero enc target pools henc hmem]
  · rintro ⟨i₀, hmiss⟩
    simp only [main_run]
    rw [brute_force_eq_one enc target pools henc i₀ hmiss]

theorem main_exit_codes_witness :
    (∀ k : Block, id k = id zeroKey ↔ k = zeroKey) ∧
    (∀ i, zeroKey i ∈ onePools i) ∧
    main_run none (some onePools) id = (1, false) ∧
    main_run (some zeroKey) none id = (0, true) ∧
    main_run (some zeroKey) (some onePools) id = (0, false) :=
  ⟨fun _ => Iff.rfl, by decide,
    (main_exit_codes id zeroKey onePools (some onePools) fun _ => Iff.rfl).1,
    (main_exit_codes id zeroKey onePools (some onePools) fun _ => Iff.rfl).2.1,
    (main_exit_codes id zeroKey onePools (some onePools) fun _ => Iff.rfl).2.2.1
      (by decide)⟩

end AESTiming
